import Mathlib

set_option maxHeartbeats 1600000

/-!
Shallow embedding of the `ami` expression parser (`src/parser.rs`) and proofs
about it.

The Rust parser is a hand-written recursive-descent parser over a token
stream.  The mutually recursive grammar procedures are embedded as a
fuel-indexed record of functions (`Fns`, built by `fns`); fuel exhaustion is
signalled by `none`, and `fns_progress` below shows that the fuel bound used
by `parse` is always sufficient, so the embedding is total on every input the
Rust code handles.

Types `TokenType`, `Token`, `Node`, `NodeType`, `BinaryOp`, `UnaryOp` and
`AmiError` are declared in the crate root (outside `src/parser.rs`); their
shapes are reconstructed from their use sites in the parser and from the
spec's data-model section.  The numeric payload of `Number` is `f64` in Rust;
the parser never inspects it (it is only moved into the tree), so it is
modelled by an opaque `Nat` payload here.
-/

/-- Half-open source range, Rust `Range<usize>`.  The Rust field `end` is a
Lean keyword, so it is called `stop` here.  `Default::default()` for a range
is `⟨0, 0⟩`. -/
structure SrcRange where
  start : Nat
  stop : Nat
  deriving DecidableEq, Repr

/-- Token kinds, from the fixed vocabulary the grammar matches on. -/
inductive TokenType : Type where
  | Number (x : Nat)
  | Identifier (name : String)
  | Eq
  | Plus
  | Minus
  | Star
  | Dot
  | Cross
  | Slash
  | Divide
  | Percent
  | Mod
  | Carrot
  | Sqrt
  | Cbrt
  | Fort
  | Exclamation
  | Degree
  | LeftParen
  | RightParen
  | Pipe
  | LeftFloor
  | RightFloor
  | LeftCeil
  | RightCeil
  | Newline
  | EOF
  deriving DecidableEq, Repr

/-- Modelled from the spec: the `Display` implementation for `TokenType` is
not under `src/` (the parser only uses it through `format!` when building
error reasons).  Symbols follow the spellings given in the spec's
external-interfaces section. -/
def TokenType.display : TokenType → String
  | .Number x => toString x
  | .Identifier name => name
  | .Eq => "="
  | .Plus => "+"
  | .Minus => "-"
  | .Star => "*"
  | .Dot => "·"
  | .Cross => "×"
  | .Slash => "/"
  | .Divide => "÷"
  | .Percent => "%"
  | .Mod => "mod"
  | .Carrot => "^"
  | .Sqrt => "√"
  | .Cbrt => "∛"
  | .Fort => "∜"
  | .Exclamation => "!"
  | .Degree => "°"
  | .LeftParen => "("
  | .RightParen => ")"
  | .Pipe => "|"
  | .LeftFloor => "⌊"
  | .RightFloor => "⌋"
  | .LeftCeil => "⌈"
  | .RightCeil => "⌉"
  | .Newline => "\n"
  | .EOF => "eof"

/-- A lexed token: a kind plus its source range. -/
structure Token where
  ty : TokenType
  range : SrcRange
  deriving DecidableEq, Repr

/-- Binary operators stored in `Binary` nodes. -/
inductive BinaryOp : Type where
  | Add | Sub | Mul | Div | Mod | Pow
  deriving DecidableEq, Repr

/-- Unary operators stored in `Unary` nodes. -/
inductive UnaryOp : Type where
  | Pos | Neg | Sqrt | Cbrt | Fort | Fact | Degree | Abs | Floor | Ceil
  deriving DecidableEq, Repr

mutual
/-- Shape of an AST node. -/
inductive NodeType : Type where
  | Statements (stmts : List Node)
  | Assignment (name : String) (right : Node)
  | Binary (left : Node) (op : BinaryOp) (right : Node)
  | Unary (op : UnaryOp) (operand : Node)
  | Number (x : Nat)
  | Identifier (name : String)
  | EOF

/-- An AST node: a shape plus a source range. -/
inductive Node : Type where
  | mk (ty : NodeType) (range : SrcRange)
end

/-- Projection for the `ty` field of `Node`. -/
def Node.ty : Node → NodeType
  | .mk t _ => t

/-- Projection for the `range` field of `Node`. -/
def Node.range : Node → SrcRange
  | .mk _ r => r

/-- Parse error: message, reason and the range of the malformed construct. -/
structure AmiError where
  msg : String
  reason : String
  range : SrcRange
  deriving DecidableEq, Repr

/-- Parser state.  Rust holds `tokens : Peekable<IntoIter<Token>>` (the not
yet pulled tokens) and `token : Token` (the current token); this is the list
of remaining tokens plus the current token. -/
structure Parser where
  tokens : List Token
  token : Token
  deriving DecidableEq, Repr

/-- The synthesized end-of-stream sentinel `Token { ty: EOF, range: Default::default() }`. -/
def eofToken : Token := ⟨.EOF, ⟨0, 0⟩⟩

/-- `Parser::new`: pull the first token (or the sentinel) as current. -/
def Parser.new (tokens : List Token) : Parser :=
  match tokens with
  | [] => ⟨[], eofToken⟩
  | t :: ts => ⟨ts, t⟩

/-- `Parser::peek`: the kind of the token after the current one. -/
def Parser.peek (p : Parser) : TokenType :=
  match p.tokens with
  | [] => .EOF
  | t :: _ => t.ty

/-- `Parser::advance`: shift the cursor forward by one. -/
def Parser.advance (p : Parser) : Parser :=
  match p.tokens with
  | [] => ⟨[], eofToken⟩
  | t :: ts => ⟨ts, t⟩

/-- Result of a grammar procedure: on success the node together with the
parser state after it (Rust mutates `self` in place; here the state is
returned), on failure the error. -/
abbrev PRes := Except AmiError (Node × Parser)

/-- Result of the statements loop: the accumulated statement list plus the
parser state after the loop. -/
abbrev LRes := Except AmiError (List Node × Parser)

/-- `Parser::node`: build a node whose range runs from `start` to the end of
the current (first unconsumed) token. -/
def Parser.node (p : Parser) (ty : NodeType) (start : Nat) : PRes :=
  .ok (⟨ty, ⟨start, p.token.range.stop⟩⟩, p)

/-- `Parser::error`: build an error whose range runs from `start` to the end
of the current token. -/
def Parser.error (p : Parser) (msg reason : String) (start : Nat) : PRes :=
  .error ⟨msg, reason, ⟨start, p.token.range.stop⟩⟩

/-- The record of the parser's mutually recursive grammar procedures.  Rust's
`prefix`/`postfix` are called `prefixFn`/`postfixFn` here; the body of the
`loop` in `Parser::statements` is the procedure `statements_loop`. -/
structure Fns where
  statements : Parser → Option PRes
  statements_loop : List Node → Parser → Option LRes
  statement : Parser → Option PRes
  expr : Parser → Option PRes
  arith_expr : Parser → Option PRes
  term : Parser → Option PRes
  factor : Parser → Option PRes
  power : Parser → Option PRes
  prefixFn : Parser → Option PRes
  postfixFn : Parser → Option PRes
  atom : Parser → Option PRes
  skip_newlines : Parser → Option (Nat × Parser)

/-- `Parser::skip_newlines`: consume consecutive newline tokens, returning
how many were consumed. -/
def skipNewlinesBody (F : Fns) (p : Parser) : Option (Nat × Parser) :=
  match p.token.ty with
  | .Newline =>
    match F.skip_newlines p.advance with
    | none => none
    | some (n, p') => some (n + 1, p')
  | _ => some (0, p)

/-- `Parser::atom`: leaf level; literals, identifiers, the four bracketed
forms, the end-of-stream marker, and the only error construction sites. -/
def atomBody (F : Fns) (p : Parser) : Option PRes :=
  match p.token.ty with
  | .Number x => some (p.advance.node (.Number x) p.token.range.start)
  | .Identifier name => some (p.advance.node (.Identifier name) p.token.range.start)
  | .LeftParen =>
    match F.arith_expr p.advance with
    | none => none
    | some (.error e) => some (.error e)
    | some (.ok (result, p1)) =>
      match p1.token.ty with
      | .RightParen => some (.ok (result, p1.advance))
      | _ =>
        some (p1.error "expected token"
          ("expected " ++ TokenType.display .RightParen) p.token.range.start)
  | .Pipe =>
    match F.arith_expr p.advance with
    | none => none
    | some (.error e) => some (.error e)
    | some (.ok (result, p1)) =>
      match p1.token.ty with
      | .Pipe => some (p1.advance.node (.Unary .Abs result) p.token.range.start)
      | _ =>
        some (p1.error "expected token"
          ("expected " ++ TokenType.display .Pipe) p.token.range.start)
  | .LeftFloor =>
    match F.arith_expr p.advance with
    | none => none
    | some (.error e) => some (.error e)
    | some (.ok (result, p1)) =>
      match p1.token.ty with
      | .RightFloor => some (p1.advance.node (.Unary .Floor result) p.token.range.start)
      | .RightCeil => some (p1.advance.node (.Unary .Abs result) p.token.range.start)
      | _ =>
        some (p1.error "expected token"
          ("expected " ++ TokenType.display .RightFloor ++ " or " ++
            TokenType.display .RightCeil) p.token.range.start)
  | .LeftCeil =>
    match F.arith_expr p.advance with
    | none => none
    | some (.error e) => some (.error e)
    | some (.ok (result, p1)) =>
      match p1.token.ty with
      | .RightCeil => some (p1.advance.node (.Unary .Ceil result) p.token.range.start)
      | _ =>
        some (p1.error "expected token"
          ("expected " ++ TokenType.display .RightCeil) p.token.range.start)
  | .EOF => some (p.node .EOF p.token.range.start)
  | _ =>
    some (p.error "expected token"
      ("expected number, variable, function name, " ++
        TokenType.display .LeftParen ++ ", " ++ TokenType.display .Pipe ++
        ", " ++ TokenType.display .LeftFloor ++ ", or " ++
        TokenType.display .LeftCeil) p.token.range.start)

/-- `Parser::postfix`: one optional trailing `!` or `°` after an atom. -/
def postfixFnBody (F : Fns) (p : Parser) : Option PRes :=
  match F.atom p with
  | none => none
  | some (.error e) => some (.error e)
  | some (.ok (result, p1)) =>
    match p1.token.ty with
    | .Exclamation => some (p1.advance.node (.Unary .Fact result) p.token.range.start)
    | .Degree => some (p1.advance.node (.Unary .Degree result) p.token.range.start)
    | _ => some (.ok (result, p1))

/-- `Parser::prefix`: right-recursive named prefix operators. -/
def prefixFnBody (F : Fns) (p : Parser) : Option PRes :=
  match p.token.ty with
  | .Sqrt =>
    match F.prefixFn p.advance with
    | none => none
    | some (.error e) => some (.error e)
    | some (.ok (left, p1)) => some (p1.node (.Unary .Sqrt left) p.token.range.start)
  | .Cbrt =>
    match F.prefixFn p.advance with
    | none => none
    | some (.error e) => some (.error e)
    | some (.ok (left, p1)) => some (p1.node (.Unary .Cbrt left) p.token.range.start)
  | .Fort =>
    match F.prefixFn p.advance with
    | none => none
    | some (.error e) => some (.error e)
    | some (.ok (left, p1)) => some (p1.node (.Unary .Fort left) p.token.range.start)
  | _ => F.postfixFn p

/-- `Parser::power`: `Prefix ('^' Factor)?`, right operand through `factor`. -/
def powerBody (F : Fns) (p : Parser) : Option PRes :=
  match F.prefixFn p with
  | none => none
  | some (.error e) => some (.error e)
  | some (.ok (result, p1)) =>
    match p1.token.ty with
    | .Carrot =>
      match F.factor p1.advance with
      | none => none
      | some (.error e) => some (.error e)
      | some (.ok (exponent, p2)) =>
        some (p2.node (.Binary result .Pow exponent) p.token.range.start)
    | _ => some (.ok (result, p1))

/-- `Parser::factor`: unary sign level. -/
def factorBody (F : Fns) (p : Parser) : Option PRes :=
  match p.token.ty with
  | .Plus =>
    match F.factor p.advance with
    | none => none
    | some (.error e) => some (.error e)
    | some (.ok (right, p1)) => some (p1.node (.Unary .Pos right) p.token.range.start)
  | .Minus =>
    match F.factor p.advance with
    | none => none
    | some (.error e) => some (.error e)
    | some (.ok (right, p1)) => some (p1.node (.Unary .Neg right) p.token.range.start)
  | _ => F.power p

/-- `Parser::term`: multiplicative level, right operand through `term`. -/
def termBody (F : Fns) (p : Parser) : Option PRes :=
  match F.factor p with
  | none => none
  | some (.error e) => some (.error e)
  | some (.ok (left, p1)) =>
    match p1.token.ty with
    | .Star | .Dot | .Cross =>
      match F.term p1.advance with
      | none => none
      | some (.error e) => some (.error e)
      | some (.ok (right, p2)) =>
        some (p2.node (.Binary left .Mul right) p.token.range.start)
    | .Slash | .Divide =>
      match F.term p1.advance with
      | none => none
      | some (.error e) => some (.error e)
      | some (.ok (right, p2)) =>
        some (p2.node (.Binary left .Div right) p.token.range.start)
    | .Percent | .Mod =>
      match F.term p1.advance with
      | none => none
      | some (.error e) => some (.error e)
      | some (.ok (right, p2)) =>
        some (p2.node (.Binary left .Mod right) p.token.range.start)
    | _ => some (.ok (left, p1))

/-- `Parser::arith_expr`: additive level, right operand through `arith_expr`. -/
def arithExprBody (F : Fns) (p : Parser) : Option PRes :=
  match F.term p with
  | none => none
  | some (.error e) => some (.error e)
  | some (.ok (left, p1)) =>
    match p1.token.ty with
    | .Plus =>
      match F.arith_expr p1.advance with
      | none => none
      | some (.error e) => some (.error e)
      | some (.ok (right, p2)) =>
        some (p2.node (.Binary left .Add right) p.token.range.start)
    | .Minus =>
      match F.arith_expr p1.advance with
      | none => none
      | some (.error e) => some (.error e)
      | some (.ok (right, p2)) =>
        some (p2.node (.Binary left .Sub right) p.token.range.start)
    | _ => some (.ok (left, p1))

/-- `Parser::expr`: assignment dispatch with one token of lookahead. -/
def exprBody (F : Fns) (p : Parser) : Option PRes :=
  match p.token.ty, p.peek with
  | .Identifier name, .Eq =>
    match F.arith_expr p.advance.advance with
    | none => none
    | some (.error e) => some (.error e)
    | some (.ok (right, p1)) =>
      some (p1.node (.Assignment name right) p.token.range.start)
  | _, _ => F.arith_expr p

/-- `Parser::statement`: currently just an expression. -/
def statementBody (F : Fns) (p : Parser) : Option PRes :=
  F.expr p

/-- Body of the `loop` in `Parser::statements`, with the `more_statements`
flag compiled away: when no separating newline is found the loop breaks; when
a statement parses to the `EOF` marker the flag is cleared and the `continue`
re-runs `skip_newlines` once before the loop breaks. -/
def statementsLoopBody (F : Fns) (acc : List Node) (p : Parser) : Option LRes :=
  match F.skip_newlines p with
  | none => none
  | some (newlines, p1) =>
    if newlines = 0 then some (.ok (acc, p1))
    else
      match F.statement p1 with
      | none => none
      | some (.error e) => some (.error e)
      | some (.ok (st, p2)) =>
        match st.ty with
        | .EOF =>
          match F.skip_newlines p2 with
          | none => none
          | some (_, p3) => some (.ok (acc, p3))
        | _ => F.statements_loop (acc ++ [st]) p2

/-- `Parser::statements`: skip leading newlines, parse the first statement
unconditionally, then run the separator loop and wrap the collected list. -/
def statementsBody (F : Fns) (p : Parser) : Option PRes :=
  match F.skip_newlines p with
  | none => none
  | some (_, p0) =>
    match F.statement p0 with
    | none => none
    | some (.error e) => some (.error e)
    | some (.ok (st, p1)) =>
      match F.statements_loop [st] p1 with
      | none => none
      | some (.error e) => some (.error e)
      | some (.ok (stmts, p2)) => some (p2.node (.Statements stmts) p.token.range.start)

/-- The everywhere-out-of-fuel record. -/
def fnsZero : Fns :=
  ⟨fun _ => none, fun _ _ => none, fun _ => none, fun _ => none,
   fun _ => none, fun _ => none, fun _ => none, fun _ => none,
   fun _ => none, fun _ => none, fun _ => none, fun _ => none⟩

/-- One layer of the mutual recursion: every procedure body calls the other
procedures through the record of the previous fuel level. -/
def mkFns (F : Fns) : Fns :=
  ⟨statementsBody F, statementsLoopBody F, statementBody F, exprBody F,
   arithExprBody F, termBody F, factorBody F, powerBody F, prefixFnBody F,
   postfixFnBody F, atomBody F, skipNewlinesBody F⟩

/-- The fuel-indexed family of grammar procedures. -/
def fns : Nat → Fns
  | 0 => fnsZero
  | n + 1 => mkFns (fns n)

/-- Fuel that is always sufficient for a token list of the given length
(established by `fns_progress`). -/
def fuelFor (ts : List Token) : Nat := 12 * ts.length + 13

/-- `Parser::parse`: run `statements` from a fresh cursor.  The `none`
branch is unreachable (see `fns_progress`); it only makes the extraction
total. -/
def parse (ts : List Token) : Except AmiError Node :=
  match (fns (fuelFor ts)).statements (Parser.new ts) with
  | some (.ok (n, _)) => .ok n
  | some (.error e) => .error e
  | none => .error ⟨"out of fuel", "unreachable", ⟨0, 0⟩⟩

/-- Remaining input measure: tokens still in the stream, plus one for a
current token that is not the end-of-stream kind. -/
def Parser.size (p : Parser) : Nat :=
  p.tokens.length + (match p.token.ty with | .EOF => 0 | _ => 1)

/-- Iterated `advance`. -/
def Parser.advanceN (p : Parser) : Nat → Parser
  | 0 => p
  | k + 1 => p.advance.advanceN k

/-- An error range runs from the start of the current token of some state the
parser passed through to the end of the current token of some state it
reached no earlier. -/
def ErrProp (p : Parser) (e : AmiError) : Prop :=
  ∃ i j, i ≤ j ∧ e.range.start = (p.advanceN i).token.range.start ∧
    e.range.stop = (p.advanceN j).token.range.stop

/-- Step invariant of a grammar procedure result: on success the final cursor
is reachable from the entry cursor by forward steps only; on failure the
error range satisfies `ErrProp`. -/
def Steps {α : Type} (p : Parser) : Option (Except AmiError (α × Parser)) → Prop
  | none => True
  | some (.error e) => ErrProp p e
  | some (.ok (_, p')) => ∃ k, p' = p.advanceN k

/-- Step invariant of `skip_newlines`: forward-only, and every counted
newline consumed at least one unit of input. -/
def SkipSteps (p : Parser) : Option (Nat × Parser) → Prop
  | none => True
  | some (k, p') => (∃ m, p' = p.advanceN m) ∧ p'.size + k ≤ p.size

/-- All grammar procedures of a record satisfy their step invariants. -/
def StepInv (F : Fns) : Prop :=
  (∀ p, Steps p (F.statements p)) ∧
  (∀ acc p, Steps p (F.statements_loop acc p)) ∧
  (∀ p, Steps p (F.statement p)) ∧
  (∀ p, Steps p (F.expr p)) ∧
  (∀ p, Steps p (F.arith_expr p)) ∧
  (∀ p, Steps p (F.term p)) ∧
  (∀ p, Steps p (F.factor p)) ∧
  (∀ p, Steps p (F.power p)) ∧
  (∀ p, Steps p (F.prefixFn p)) ∧
  (∀ p, Steps p (F.postfixFn p)) ∧
  (∀ p, Steps p (F.atom p)) ∧
  (∀ p, SkipSteps p (F.skip_newlines p))

/-- Sufficient-fuel property for all grammar procedures at fuel `n`. -/
def Progress (n : Nat) : Prop :=
  (∀ p, 12 * p.size + 10 < n → (fns n).statements p ≠ none) ∧
  (∀ acc p, 12 * p.size + 9 < n → (fns n).statements_loop acc p ≠ none) ∧
  (∀ p, 12 * p.size + 8 < n → (fns n).statement p ≠ none) ∧
  (∀ p, 12 * p.size + 7 < n → (fns n).expr p ≠ none) ∧
  (∀ p, 12 * p.size + 6 < n → (fns n).arith_expr p ≠ none) ∧
  (∀ p, 12 * p.size + 5 < n → (fns n).term p ≠ none) ∧
  (∀ p, 12 * p.size + 4 < n → (fns n).factor p ≠ none) ∧
  (∀ p, 12 * p.size + 3 < n → (fns n).power p ≠ none) ∧
  (∀ p, 12 * p.size + 2 < n → (fns n).prefixFn p ≠ none) ∧
  (∀ p, 12 * p.size + 1 < n → (fns n).postfixFn p ≠ none) ∧
  (∀ p, 12 * p.size < n → (fns n).atom p ≠ none) ∧
  (∀ p, 12 * p.size < n → (fns n).skip_newlines p ≠ none)

/-- Strong error characterization: the error was produced by the `atom`
procedure invoked at a state `q` the cursor reached from `p` (`q` is the
construct being parsed when the failure was detected), the error range
starts at `q`'s current-token start (the construct's start), and it ends at
the failing token's end: either `q`'s own current token (unexpected leading
token), or the current token of the exact state `q'` returned by the inner
`arith_expr` call at which the closing-bracket check failed. -/
def ErrAt (p : Parser) (e : AmiError) : Prop :=
  ∃ k m, (fns m).atom (p.advanceN k) = some (.error e) ∧
    e.range.start = (p.advanceN k).token.range.start ∧
    (e.range.stop = (p.advanceN k).token.range.stop ∨
      ∃ m2 nd q', (fns m2).arith_expr ((p.advanceN k).advance) =
          some (.ok (nd, q')) ∧
        e.range.stop = q'.token.range.stop)

/-- All error-returning grammar procedures of fuel level `n` produce only
errors satisfying `ErrAt` relative to their entry state. -/
def ErrInv (n : Nat) : Prop :=
  (∀ p e, (fns n).statements p = some (.error e) → ErrAt p e) ∧
  (∀ acc p e, (fns n).statements_loop acc p = some (.error e) → ErrAt p e) ∧
  (∀ p e, (fns n).statement p = some (.error e) → ErrAt p e) ∧
  (∀ p e, (fns n).expr p = some (.error e) → ErrAt p e) ∧
  (∀ p e, (fns n).arith_expr p = some (.error e) → ErrAt p e) ∧
  (∀ p e, (fns n).term p = some (.error e) → ErrAt p e) ∧
  (∀ p e, (fns n).factor p = some (.error e) → ErrAt p e) ∧
  (∀ p e, (fns n).power p = some (.error e) → ErrAt p e) ∧
  (∀ p e, (fns n).prefixFn p = some (.error e) → ErrAt p e) ∧
  (∀ p e, (fns n).postfixFn p = some (.error e) → ErrAt p e) ∧
  (∀ p e, (fns n).atom p = some (.error e) → ErrAt p e)

theorem Parser.advanceN_zero (p : Parser) : p.advanceN 0 = p := rfl

theorem Parser.advanceN_add (p : Parser) (i j : Nat) :
    p.advanceN (i + j) = (p.advanceN i).advanceN j := by
  induction i generalizing p with
  | zero => simp [Parser.advanceN]
  | succ i ih =>
    have : i + 1 + j = (i + j) + 1 := by omega
    rw [this]
    show p.advance.advanceN (i + j) = _
    rw [ih]
    rfl

theorem Parser.advance_eq_advanceN_one (p : Parser) : p.advance = p.advanceN 1 := rfl

theorem Parser.advanceN_advance (p : Parser) (i : Nat) :
    (p.advanceN i).advance = p.advanceN (i + 1) := by
  rw [Parser.advanceN_add p i 1]
  rfl

theorem Parser.size_advance_le (p : Parser) : p.advance.size ≤ p.size := by
  rcases p with ⟨ts, t⟩
  cases ts with
  | nil =>
    show (Parser.mk [] eofToken).size ≤ _
    simp only [Parser.size, eofToken]
    split <;> simp
  | cons t' ts' =>
    show (Parser.mk ts' t').size ≤ (Parser.mk (t' :: ts') t).size
    simp only [Parser.size, List.length_cons]
    split <;> split <;> omega

theorem Parser.size_advance_lt (p : Parser) (h : p.token.ty ≠ .EOF) :
    p.advance.size < p.size := by
  rcases p with ⟨ts, t⟩
  have ht : (match t.ty with | TokenType.EOF => 0 | _ => 1) = 1 := by
    cases h2 : t.ty <;> simp_all
  cases ts with
  | nil =>
    show (Parser.mk [] eofToken).size < _
    simp only [Parser.size, eofToken, ht]
    simp
  | cons t' ts' =>
    show (Parser.mk ts' t').size < (Parser.mk (t' :: ts') t).size
    simp only [Parser.size, List.length_cons, ht]
    split <;> omega

theorem Parser.size_advanceN_le (p : Parser) (k : Nat) :
    (p.advanceN k).size ≤ p.size := by
  induction k generalizing p with
  | zero => exact Nat.le_refl _
  | succ k ih =>
    calc (p.advance.advanceN k).size ≤ p.advance.size := ih p.advance
    _ ≤ p.size := p.size_advance_le

theorem steps_shift {α : Type} {p : Parser} {t : Nat}
    {r : Option (Except AmiError (α × Parser))}
    (h : Steps (p.advanceN t) r) : Steps p r := by
  cases r with
  | none => trivial
  | some x =>
    cases x with
    | error e =>
      obtain ⟨i, j, hij, hs, he⟩ := h
      exact ⟨t + i, t + j, by omega,
        by rw [Parser.advanceN_add]; exact hs,
        by rw [Parser.advanceN_add]; exact he⟩
    | ok np =>
      obtain ⟨k, hk⟩ := h
      exact ⟨t + k, by rw [Parser.advanceN_add]; exact hk⟩

theorem errProp_shift {p : Parser} (t : Nat) {e : AmiError}
    (h : ErrProp (p.advanceN t) e) : ErrProp p e := by
  obtain ⟨i, j, hij, hs, he⟩ := h
  exact ⟨t + i, t + j, by omega,
    by rw [Parser.advanceN_add]; exact hs,
    by rw [Parser.advanceN_add]; exact he⟩

theorem steps_ok {α : Type} {q p1 : Parser} {n : α}
    {r : Option (Except AmiError (α × Parser))}
    (h : Steps q r) (he : r = some (.ok (n, p1))) : ∃ k, p1 = q.advanceN k := by
  subst he; exact h

theorem steps_err {α : Type} {q : Parser} {e : AmiError}
    {r : Option (Except AmiError (α × Parser))}
    (h : Steps q r) (he : r = some (.error e)) : ErrProp q e := by
  subst he; exact h

theorem adv_chain {p q : Parser} {k : Nat} (h : q = p.advance.advanceN k) :
    q = p.advanceN (1 + k) := by
  rw [h, Parser.advanceN_add p 1 k]
  rfl

theorem adv_snoc {p q : Parser} {m : Nat} (h : q = p.advanceN m) :
    q.advance = p.advanceN (m + 1) := by
  rw [h, Parser.advanceN_advance]

theorem skipNewlinesBody_steps (F : Fns)
    (hskip : ∀ p, SkipSteps p (F.skip_newlines p)) (p : Parser) :
    SkipSteps p (skipNewlinesBody F p) := by
  unfold skipNewlinesBody
  split
  · next hty =>
    split
    · exact trivial
    · next n p' heq =>
      have h := hskip p.advance
      rw [heq] at h
      obtain ⟨⟨m, hm⟩, hsz⟩ := h
      have hlt : p.advance.size < p.size :=
        p.size_advance_lt (by rw [hty]; intro hc; cases hc)
      exact ⟨⟨1 + m, adv_chain hm⟩, by omega⟩
  · exact ⟨⟨0, rfl⟩, by omega⟩

theorem postfixFnBody_steps (F : Fns)
    (hatom : ∀ p, Steps p (F.atom p)) (p : Parser) :
    Steps p (postfixFnBody F p) := by
  unfold postfixFnBody
  split
  · exact trivial
  · next e heq => exact steps_err (hatom p) heq
  · next result p1 heq =>
    obtain ⟨k, hk⟩ := steps_ok (hatom p) heq
    split
    · exact ⟨k + 1, adv_snoc hk⟩
    · exact ⟨k + 1, adv_snoc hk⟩
    · exact ⟨k, hk⟩

theorem atomBody_steps (F : Fns)
    (harith : ∀ p, Steps p (F.arith_expr p)) (p : Parser) :
    Steps p (atomBody F p) := by
  unfold atomBody
  split
  · exact ⟨1, rfl⟩
  · exact ⟨1, rfl⟩
  · -- LeftParen
    split
    · exact trivial
    · next e heq => exact errProp_shift 1 (steps_err (harith p.advance) heq)
    · next result p1 heq =>
      obtain ⟨k, hk⟩ := steps_ok (harith p.advance) heq
      have hk1 : p1 = p.advanceN (1 + k) := adv_chain hk
      split
      · exact ⟨1 + k + 1, adv_snoc hk1⟩
      · exact ⟨0, 1 + k, by omega, rfl, by rw [hk1]⟩
  · -- Pipe
    split
    · exact trivial
    · next e heq => exact errProp_shift 1 (steps_err (harith p.advance) heq)
    · next result p1 heq =>
      obtain ⟨k, hk⟩ := steps_ok (harith p.advance) heq
      have hk1 : p1 = p.advanceN (1 + k) := adv_chain hk
      split
      · exact ⟨1 + k + 1, adv_snoc hk1⟩
      · exact ⟨0, 1 + k, by omega, rfl, by rw [hk1]⟩
  · -- LeftFloor
    split
    · exact trivial
    · next e heq => exact errProp_shift 1 (steps_err (harith p.advance) heq)
    · next result p1 heq =>
      obtain ⟨k, hk⟩ := steps_ok (harith p.advance) heq
      have hk1 : p1 = p.advanceN (1 + k) := adv_chain hk
      split
      · exact ⟨1 + k + 1, adv_snoc hk1⟩
      · exact ⟨1 + k + 1, adv_snoc hk1⟩
      · exact ⟨0, 1 + k, by omega, rfl, by rw [hk1]⟩
  · -- LeftCeil
    split
    · exact trivial
    · next e heq => exact errProp_shift 1 (steps_err (harith p.advance) heq)
    · next result p1 heq =>
      obtain ⟨k, hk⟩ := steps_ok (harith p.advance) heq
      have hk1 : p1 = p.advanceN (1 + k) := adv_chain hk
      split
      · exact ⟨1 + k + 1, adv_snoc hk1⟩
      · exact ⟨0, 1 + k, by omega, rfl, by rw [hk1]⟩
  · exact ⟨0, rfl⟩
  · exact ⟨0, 0, Nat.le_refl 0, rfl, rfl⟩

theorem prefixFnBody_steps (F : Fns)
    (hpre : ∀ p, Steps p (F.prefixFn p))
    (hpost : ∀ p, Steps p (F.postfixFn p)) (p : Parser) :
    Steps p (prefixFnBody F p) := by
  unfold prefixFnBody
  split
  · split
    · exact trivial
    · next e heq => exact errProp_shift 1 (steps_err (hpre p.advance) heq)
    · next left p1 heq =>
      obtain ⟨k, hk⟩ := steps_ok (hpre p.advance) heq
      exact ⟨1 + k, adv_chain hk⟩
  · split
    · exact trivial
    · next e heq => exact errProp_shift 1 (steps_err (hpre p.advance) heq)
    · next left p1 heq =>
      obtain ⟨k, hk⟩ := steps_ok (hpre p.advance) heq
      exact ⟨1 + k, adv_chain hk⟩
  · split
    · exact trivial
    · next e heq => exact errProp_shift 1 (steps_err (hpre p.advance) heq)
    · next left p1 heq =>
      obtain ⟨k, hk⟩ := steps_ok (hpre p.advance) heq
      exact ⟨1 + k, adv_chain hk⟩
  · exact hpost p

theorem powerBody_steps (F : Fns)
    (hpre : ∀ p, Steps p (F.prefixFn p))
    (hfac : ∀ p, Steps p (F.factor p)) (p : Parser) :
    Steps p (powerBody F p) := by
  unfold powerBody
  split
  · exact trivial
  · next e heq => exact steps_err (hpre p) heq
  · next result p1 heq =>
    obtain ⟨k, hk⟩ := steps_ok (hpre p) heq
    split
    · split
      · exact trivial
      · next e heq2 =>
        have h := steps_err (hfac p1.advance) heq2
        rw [adv_snoc hk] at h
        exact errProp_shift _ h
      · next exponent p2 heq2 =>
        obtain ⟨m, hm⟩ := steps_ok (hfac p1.advance) heq2
        rw [adv_snoc hk, ← Parser.advanceN_add] at hm
        exact ⟨k + 1 + m, hm⟩
    · exact ⟨k, hk⟩

theorem factorBody_steps (F : Fns)
    (hfac : ∀ p, Steps p (F.factor p))
    (hpow : ∀ p, Steps p (F.power p)) (p : Parser) :
    Steps p (factorBody F p) := by
  unfold factorBody
  split
  · split
    · exact trivial
    · next e heq => exact errProp_shift 1 (steps_err (hfac p.advance) heq)
    · next right p1 heq =>
      obtain ⟨k, hk⟩ := steps_ok (hfac p.advance) heq
      exact ⟨1 + k, adv_chain hk⟩
  · split
    · exact trivial
    · next e heq => exact errProp_shift 1 (steps_err (hfac p.advance) heq)
    · next right p1 heq =>
      obtain ⟨k, hk⟩ := steps_ok (hfac p.advance) heq
      exact ⟨1 + k, adv_chain hk⟩
  · exact hpow p

theorem adv_comp {p q r : Parser} {a b : Nat}
    (h1 : q = p.advanceN a) (h2 : r = q.advanceN b) : r = p.advanceN (a + b) := by
  rw [h2, h1, ← Parser.advanceN_add]

theorem steps_of_eq {α : Type} {p q : Parser} {t : Nat}
    {r : Option (Except AmiError (α × Parser))}
    (hq : q = p.advanceN t) (h : Steps q r) : Steps p r := by
  rw [hq] at h
  exact steps_shift h

theorem errProp_of_eq {p q : Parser} {t : Nat} {e : AmiError}
    (hq : q = p.advanceN t) (h : ErrProp q e) : ErrProp p e := by
  rw [hq] at h
  exact errProp_shift t h

theorem termBody_steps (F : Fns)
    (hfac : ∀ p, Steps p (F.factor p))
    (hterm : ∀ p, Steps p (F.term p)) (p : Parser) :
    Steps p (termBody F p) := by
  unfold termBody
  split
  · exact trivial
  · next e heq => exact steps_err (hfac p) heq
  · next left p1 heq =>
    obtain ⟨k, hk⟩ := steps_ok (hfac p) heq
    split <;>
      first
        | exact ⟨k, hk⟩
        | (split
           · exact trivial
           · next e heq2 =>
               exact errProp_of_eq (adv_snoc hk) (steps_err (hterm p1.advance) heq2)
           · next right p2 heq2 =>
               obtain ⟨m, hm⟩ := steps_ok (hterm p1.advance) heq2
               exact ⟨k + 1 + m, adv_comp (adv_snoc hk) hm⟩)

theorem arithExprBody_steps (F : Fns)
    (hterm : ∀ p, Steps p (F.term p))
    (harith : ∀ p, Steps p (F.arith_expr p)) (p : Parser) :
    Steps p (arithExprBody F p) := by
  unfold arithExprBody
  split
  · exact trivial
  · next e heq => exact steps_err (hterm p) heq
  · next left p1 heq =>
    obtain ⟨k, hk⟩ := steps_ok (hterm p) heq
    split
    · split
      · exact trivial
      · next e heq2 =>
        exact errProp_of_eq (adv_snoc hk) (steps_err (harith p1.advance) heq2)
      · next right p2 heq2 =>
        obtain ⟨m, hm⟩ := steps_ok (harith p1.advance) heq2
        exact ⟨k + 1 + m, adv_comp (adv_snoc hk) hm⟩
    · split
      · exact trivial
      · next e heq2 =>
        exact errProp_of_eq (adv_snoc hk) (steps_err (harith p1.advance) heq2)
      · next right p2 heq2 =>
        obtain ⟨m, hm⟩ := steps_ok (harith p1.advance) heq2
        exact ⟨k + 1 + m, adv_comp (adv_snoc hk) hm⟩
    · exact ⟨k, hk⟩

theorem exprBody_steps (F : Fns)
    (harith : ∀ p, Steps p (F.arith_expr p)) (p : Parser) :
    Steps p (exprBody F p) := by
  unfold exprBody
  split
  · split
    · exact trivial
    · next e heq =>
      exact errProp_shift 2 (steps_err (harith p.advance.advance) heq)
    · next right p1 heq =>
      obtain ⟨k, hk⟩ := steps_ok (harith p.advance.advance) heq
      refine ⟨2 + k, ?_⟩
      rw [hk, Parser.advanceN_add p 2 k]
      rfl
  · exact harith p

theorem statementBody_steps (F : Fns)
    (hexpr : ∀ p, Steps p (F.expr p)) (p : Parser) :
    Steps p (statementBody F p) := by
  unfold statementBody
  exact hexpr p

theorem statementsLoopBody_steps (F : Fns)
    (hskip : ∀ p, SkipSteps p (F.skip_newlines p))
    (hstmt : ∀ p, Steps p (F.statement p))
    (hloop : ∀ acc p, Steps p (F.statements_loop acc p))
    (acc : List Node) (p : Parser) :
    Steps p (statementsLoopBody F acc p) := by
  unfold statementsLoopBody
  split
  · exact trivial
  · next newlines p1 heq =>
    have hs := hskip p
    rw [heq] at hs
    obtain ⟨⟨m, hm⟩, _⟩ := hs
    split
    · exact ⟨m, hm⟩
    · split
      · exact trivial
      · next e heq2 => exact errProp_of_eq hm (steps_err (hstmt p1) heq2)
      · next st p2 heq2 =>
        obtain ⟨k, hk⟩ := steps_ok (hstmt p1) heq2
        have hk2 : p2 = p.advanceN (m + k) := adv_comp hm hk
        split
        · split
          · exact trivial
          · next n3 p3 heq3 =>
            have hs3 := hskip p2
            rw [heq3] at hs3
            obtain ⟨⟨m3, hm3⟩, _⟩ := hs3
            exact ⟨m + k + m3, adv_comp hk2 hm3⟩
        · exact steps_of_eq hk2 (hloop (acc ++ [st]) p2)

theorem statementsBody_steps (F : Fns)
    (hskip : ∀ p, SkipSteps p (F.skip_newlines p))
    (hstmt : ∀ p, Steps p (F.statement p))
    (hloop : ∀ acc p, Steps p (F.statements_loop acc p))
    (p : Parser) :
    Steps p (statementsBody F p) := by
  unfold statementsBody
  split
  · exact trivial
  · next n0 p0 heq =>
    have hs := hskip p
    rw [heq] at hs
    obtain ⟨⟨m, hm⟩, _⟩ := hs
    split
    · exact trivial
    · next e heq2 => exact errProp_of_eq hm (steps_err (hstmt p0) heq2)
    · next st p1 heq2 =>
      obtain ⟨k, hk⟩ := steps_ok (hstmt p0) heq2
      have hk2 : p1 = p.advanceN (m + k) := adv_comp hm hk
      split
      · exact trivial
      · next e heq3 =>
        exact errProp_of_eq hk2 (steps_err (hloop [st] p1) heq3)
      · next stmts p2 heq3 =>
        obtain ⟨l, hl⟩ := steps_ok (hloop [st] p1) heq3
        exact ⟨m + k + l, adv_comp hk2 hl⟩

theorem fnsZero_stepInv : StepInv fnsZero := by
  refine ⟨?_, ?_, ?_, ?_, ?_, ?_, ?_, ?_, ?_, ?_, ?_, ?_⟩ <;> intros <;> exact trivial

theorem mkFns_stepInv {F : Fns} (h : StepInv F) : StepInv (mkFns F) := by
  obtain ⟨h1, h2, h3, h4, h5, h6, h7, h8, h9, h10, h11, h12⟩ := h
  exact ⟨statementsBody_steps F h12 h3 h2,
    statementsLoopBody_steps F h12 h3 h2,
    statementBody_steps F h4,
    exprBody_steps F h5,
    arithExprBody_steps F h6 h5,
    termBody_steps F h7 h6,
    factorBody_steps F h7 h8,
    powerBody_steps F h9 h7,
    prefixFnBody_steps F h9 h10,
    postfixFnBody_steps F h11,
    atomBody_steps F h5,
    skipNewlinesBody_steps F h12⟩

/-- Every fuel level of the grammar procedures satisfies the step invariants:
the cursor only moves forward, and error ranges are anchored at reached
states. -/
theorem fns_stepInv : ∀ n, StepInv (fns n)
  | 0 => fnsZero_stepInv
  | n + 1 => mkFns_stepInv (fns_stepInv n)

theorem steps_ok_size {α : Type} {q p1 : Parser} {m : α}
    {r : Option (Except AmiError (α × Parser))}
    (h : Steps q r) (he : r = some (.ok (m, p1))) : p1.size ≤ q.size := by
  obtain ⟨k, hk⟩ := steps_ok h he
  rw [hk]
  exact q.size_advanceN_le k

theorem size_new_le (ts : List Token) : (Parser.new ts).size ≤ ts.length := by
  cases ts with
  | nil =>
    show (Parser.mk [] eofToken).size ≤ 0
    simp [Parser.size, eofToken]
  | cons t rest =>
    show (Parser.mk rest t).size ≤ rest.length + 1
    simp only [Parser.size, List.length_cons]
    split <;> omega

theorem skipNewlinesBody_progress (F : Fns) {n : Nat}
    (hskip : ∀ p, 12 * p.size < n → F.skip_newlines p ≠ none)
    (p : Parser) (h : 12 * p.size < n + 1) : skipNewlinesBody F p ≠ none := by
  unfold skipNewlinesBody
  split
  · next hty =>
    cases hr : F.skip_newlines p.advance with
    | none =>
      refine absurd hr (hskip p.advance ?_)
      have hlt := p.size_advance_lt (by simp [hty])
      omega
    | some x =>
      obtain ⟨m, p'⟩ := x
      exact Option.some_ne_none _
  · exact Option.some_ne_none _

theorem atomBody_progress (F : Fns) {n : Nat}
    (harith : ∀ p, 12 * p.size + 6 < n → F.arith_expr p ≠ none)
    (p : Parser) (h : 12 * p.size < n + 1) : atomBody F p ≠ none := by
  unfold atomBody
  split <;>
    first
      | exact Option.some_ne_none _
      | (rename_i hty
         split
         · next heq =>
             refine absurd heq (harith p.advance ?_)
             have hlt := p.size_advance_lt (by simp [hty])
             omega
         · exact Option.some_ne_none _
         · split <;> exact Option.some_ne_none _)

theorem postfixFnBody_progress (F : Fns) {n : Nat}
    (hatom : ∀ p, 12 * p.size < n → F.atom p ≠ none)
    (p : Parser) (h : 12 * p.size + 1 < n + 1) : postfixFnBody F p ≠ none := by
  unfold postfixFnBody
  split
  · next heq => exact absurd heq (hatom p (by omega))
  · exact Option.some_ne_none _
  · split <;> exact Option.some_ne_none _

theorem prefixFnBody_progress (F : Fns) {n : Nat}
    (hpre : ∀ p, 12 * p.size + 2 < n → F.prefixFn p ≠ none)
    (hpost : ∀ p, 12 * p.size + 1 < n → F.postfixFn p ≠ none)
    (p : Parser) (h : 12 * p.size + 2 < n + 1) : prefixFnBody F p ≠ none := by
  unfold prefixFnBody
  split <;>
    first
      | exact hpost p (by omega)
      | (rename_i hty
         split
         · next heq =>
             refine absurd heq (hpre p.advance ?_)
             have hlt := p.size_advance_lt (by simp [hty])
             omega
         · exact Option.some_ne_none _
         · exact Option.some_ne_none _)

theorem powerBody_progress (F : Fns) (hS : StepInv F) {n : Nat}
    (hpre : ∀ p, 12 * p.size + 2 < n → F.prefixFn p ≠ none)
    (hfac : ∀ p, 12 * p.size + 4 < n → F.factor p ≠ none)
    (p : Parser) (h : 12 * p.size + 3 < n + 1) : powerBody F p ≠ none := by
  obtain ⟨-, -, -, -, -, -, -, -, hSpre, -, -, -⟩ := hS
  unfold powerBody
  split
  · next heq => exact absurd heq (hpre p (by omega))
  · exact Option.some_ne_none _
  · next result p1 heq =>
    have hsz : p1.size ≤ p.size := steps_ok_size (hSpre p) heq
    split
    · rename_i hty
      split
      · next heq2 =>
        refine absurd heq2 (hfac p1.advance ?_)
        have hlt := p1.size_advance_lt (by simp [hty])
        omega
      · exact Option.some_ne_none _
      · exact Option.some_ne_none _
    · exact Option.some_ne_none _

theorem factorBody_progress (F : Fns) {n : Nat}
    (hfac : ∀ p, 12 * p.size + 4 < n → F.factor p ≠ none)
    (hpow : ∀ p, 12 * p.size + 3 < n → F.power p ≠ none)
    (p : Parser) (h : 12 * p.size + 4 < n + 1) : factorBody F p ≠ none := by
  unfold factorBody
  split <;>
    first
      | exact hpow p (by omega)
      | (rename_i hty
         split
         · next heq =>
             refine absurd heq (hfac p.advance ?_)
             have hlt := p.size_advance_lt (by simp [hty])
             omega
         · exact Option.some_ne_none _
         · exact Option.some_ne_none _)

theorem termBody_progress (F : Fns) (hS : StepInv F) {n : Nat}
    (hfac : ∀ p, 12 * p.size + 4 < n → F.factor p ≠ none)
    (hterm : ∀ p, 12 * p.size + 5 < n → F.term p ≠ none)
    (p : Parser) (h : 12 * p.size + 5 < n + 1) : termBody F p ≠ none := by
  obtain ⟨-, -, -, -, -, -, hSfac, -, -, -, -, -⟩ := hS
  unfold termBody
  split
  · next heq => exact absurd heq (hfac p (by omega))
  · exact Option.some_ne_none _
  · next left p1 heq =>
    have hsz : p1.size ≤ p.size := steps_ok_size (hSfac p) heq
    split <;>
      first
        | exact Option.some_ne_none _
        | (rename_i hty
           split
           · next heq2 =>
               refine absurd heq2 (hterm p1.advance ?_)
               have hlt := p1.size_advance_lt (by simp [hty])
               omega
           · exact Option.some_ne_none _
           · exact Option.some_ne_none _)

theorem arithExprBody_progress (F : Fns) (hS : StepInv F) {n : Nat}
    (hterm : ∀ p, 12 * p.size + 5 < n → F.term p ≠ none)
    (harith : ∀ p, 12 * p.size + 6 < n → F.arith_expr p ≠ none)
    (p : Parser) (h : 12 * p.size + 6 < n + 1) : arithExprBody F p ≠ none := by
  obtain ⟨-, -, -, -, -, hSterm, -, -, -, -, -, -⟩ := hS
  unfold arithExprBody
  split
  · next heq => exact absurd heq (hterm p (by omega))
  · exact Option.some_ne_none _
  · next left p1 heq =>
    have hsz : p1.size ≤ p.size := steps_ok_size (hSterm p) heq
    split <;>
      first
        | exact Option.some_ne_none _
        | (rename_i hty
           split
           · next heq2 =>
               refine absurd heq2 (harith p1.advance ?_)
               have hlt := p1.size_advance_lt (by simp [hty])
               omega
           · exact Option.some_ne_none _
           · exact Option.some_ne_none _)

theorem exprBody_progress (F : Fns) {n : Nat}
    (harith : ∀ p, 12 * p.size + 6 < n → F.arith_expr p ≠ none)
    (p : Parser) (h : 12 * p.size + 7 < n + 1) : exprBody F p ≠ none := by
  unfold exprBody
  split
  · split
    · next heq =>
      refine absurd heq (harith p.advance.advance ?_)
      have h1 := p.size_advance_le
      have h2 := p.advance.size_advance_le
      omega
    · exact Option.some_ne_none _
    · exact Option.some_ne_none _
  · exact harith p (by omega)

theorem statementBody_progress (F : Fns) {n : Nat}
    (hexpr : ∀ p, 12 * p.size + 7 < n → F.expr p ≠ none)
    (p : Parser) (h : 12 * p.size + 8 < n + 1) : statementBody F p ≠ none := by
  unfold statementBody
  exact hexpr p (by omega)

theorem statementsLoopBody_progress (F : Fns) (hS : StepInv F) {n : Nat}
    (hloop : ∀ acc p, 12 * p.size + 9 < n → F.statements_loop acc p ≠ none)
    (hstmt : ∀ p, 12 * p.size + 8 < n → F.statement p ≠ none)
    (hskip : ∀ p, 12 * p.size < n → F.skip_newlines p ≠ none)
    (acc : List Node) (p : Parser) (h : 12 * p.size + 9 < n + 1) :
    statementsLoopBody F acc p ≠ none := by
  obtain ⟨-, -, hSstmt, -, -, -, -, -, -, -, -, hSskip⟩ := hS
  unfold statementsLoopBody
  split
  · next heq => exact absurd heq (hskip p (by omega))
  · next newlines p1 heq =>
    have hsk := hSskip p
    rw [heq] at hsk
    obtain ⟨-, hsz⟩ := hsk
    split
    · exact Option.some_ne_none _
    · next hne =>
      split
      · next heq2 => exact absurd heq2 (hstmt p1 (by omega))
      · exact Option.some_ne_none _
      · next st p2 heq2 =>
        have hsz2 : p2.size ≤ p1.size := steps_ok_size (hSstmt p1) heq2
        split
        · split
          · next heq3 => exact absurd heq3 (hskip p2 (by omega))
          · exact Option.some_ne_none _
        · exact hloop (acc ++ [st]) p2 (by omega)

theorem statementsBody_progress (F : Fns) (hS : StepInv F) {n : Nat}
    (hloop : ∀ acc p, 12 * p.size + 9 < n → F.statements_loop acc p ≠ none)
    (hstmt : ∀ p, 12 * p.size + 8 < n → F.statement p ≠ none)
    (hskip : ∀ p, 12 * p.size < n → F.skip_newlines p ≠ none)
    (p : Parser) (h : 12 * p.size + 10 < n + 1) : statementsBody F p ≠ none := by
  obtain ⟨-, -, hSstmt, -, -, -, -, -, -, -, -, hSskip⟩ := hS
  unfold statementsBody
  split
  · next heq => exact absurd heq (hskip p (by omega))
  · next n0 p0 heq =>
    have hsk := hSskip p
    rw [heq] at hsk
    obtain ⟨-, hsz⟩ := hsk
    split
    · next heq2 => exact absurd heq2 (hstmt p0 (by omega))
    · exact Option.some_ne_none _
    · next st p1 heq2 =>
      have hsz2 : p1.size ≤ p0.size := steps_ok_size (hSstmt p0) heq2
      split
      · next heq3 => exact absurd heq3 (hloop [st] p1 (by omega))
      · exact Option.some_ne_none _
      · exact Option.some_ne_none _

/-- With fuel exceeding twelve times the remaining input plus the grammar
level, every procedure returns a result: the parser terminates. -/
theorem fns_progress : ∀ n, Progress n := by
  intro n
  induction n with
  | zero =>
    refine ⟨?_, ?_, ?_, ?_, ?_, ?_, ?_, ?_, ?_, ?_, ?_, ?_⟩ <;>
      (intros; exfalso; omega)
  | succ n ih =>
    obtain ⟨ih1, ih2, ih3, ih4, ih5, ih6, ih7, ih8, ih9, ih10, ih11, ih12⟩ := ih
    have hS := fns_stepInv n
    exact ⟨fun p h => statementsBody_progress (fns n) hS ih2 ih3 ih12 p h,
      fun acc p h => statementsLoopBody_progress (fns n) hS ih2 ih3 ih12 acc p h,
      fun p h => statementBody_progress (fns n) ih4 p h,
      fun p h => exprBody_progress (fns n) ih5 p h,
      fun p h => arithExprBody_progress (fns n) hS ih6 ih5 p h,
      fun p h => termBody_progress (fns n) hS ih7 ih6 p h,
      fun p h => factorBody_progress (fns n) ih7 ih8 p h,
      fun p h => powerBody_progress (fns n) hS ih9 ih7 p h,
      fun p h => prefixFnBody_progress (fns n) ih9 ih10 p h,
      fun p h => postfixFnBody_progress (fns n) ih11 p h,
      fun p h => atomBody_progress (fns n) ih5 p h,
      fun p h => skipNewlinesBody_progress (fns n) ih12 p h⟩

/-- The fuel bound used by `parse` always suffices. -/
theorem statements_total (ts : List Token) :
    (fns (fuelFor ts)).statements (Parser.new ts) ≠ none := by
  refine (fns_progress (fuelFor ts)).1 (Parser.new ts) ?_
  have := size_new_le ts
  unfold fuelFor
  omega

/-- On success, `statements` wraps the collected statements in a node whose
range runs from the entry token's start to the end of the token that is
current when the parse completes. -/
theorem statements_ok_range {n : Nat} {p p' : Parser} {nd : Node}
    (h : (fns n).statements p = some (.ok (nd, p'))) :
    nd.range = ⟨p.token.range.start, p'.token.range.stop⟩ := by
  cases n with
  | zero => cases h
  | succ n =>
    have h' : statementsBody (fns n) p = some (.ok (nd, p')) := h
    unfold statementsBody at h'
    split at h'
    · cases h'
    · split at h'
      · cases h'
      · cases h'
      · split at h'
        · cases h'
        · cases h'
        · simp only [Parser.node, Option.some.injEq, Except.ok.injEq,
            Prod.mk.injEq] at h'
          obtain ⟨hnd, hp⟩ := h'
          subst hp
          rw [← hnd]
          rfl

/-- A failed `parse` yields an error whose range is anchored at states the
cursor actually reached. -/
theorem parse_error_errProp {ts : List Token} {e : AmiError}
    (h : parse ts = .error e) : ErrProp (Parser.new ts) e := by
  unfold parse at h
  split at h
  · cases h
  · next e' heq =>
    cases h
    exact steps_err ((fns_stepInv (fuelFor ts)).1 (Parser.new ts)) heq
  · next heq => exact absurd heq (statements_total ts)

theorem errAt_shift {p : Parser} (t : Nat) {e : AmiError}
    (h : ErrAt (p.advanceN t) e) : ErrAt p e := by
  obtain ⟨k, m, h1, h2, h3⟩ := h
  rw [← Parser.advanceN_add] at h1 h2 h3
  exact ⟨t + k, m, h1, h2, h3⟩

theorem errAt_of_eq {p q : Parser} {t : Nat} {e : AmiError}
    (hq : q = p.advanceN t) (h : ErrAt q e) : ErrAt p e := by
  rw [hq] at h
  exact errAt_shift t h

theorem atomBody_errAt {n : Nat}
    (harith : ∀ p e, (fns n).arith_expr p = some (.error e) → ErrAt p e)
    (p : Parser) (e : AmiError)
    (h : atomBody (fns n) p = some (.error e)) : ErrAt p e := by
  have hAtom : (fns (n + 1)).atom p = some (.error e) := h
  unfold atomBody at h
  split at h
  · cases h
  · cases h
  · -- LeftParen
    split at h
    · cases h
    · next heq => cases h; exact errAt_shift 1 (harith p.advance e heq)
    · next result p1 heq =>
      split at h
      · cases h
      · simp only [Parser.error, Option.some.injEq, Except.error.injEq] at h
        subst h
        exact ⟨0, n + 1, hAtom, rfl, Or.inr ⟨n, result, p1, heq, rfl⟩⟩
  · -- Pipe
    split at h
    · cases h
    · next heq => cases h; exact errAt_shift 1 (harith p.advance e heq)
    · next result p1 heq =>
      split at h
      · cases h
      · simp only [Parser.error, Option.some.injEq, Except.error.injEq] at h
        subst h
        exact ⟨0, n + 1, hAtom, rfl, Or.inr ⟨n, result, p1, heq, rfl⟩⟩
  · -- LeftFloor
    split at h
    · cases h
    · next heq => cases h; exact errAt_shift 1 (harith p.advance e heq)
    · next result p1 heq =>
      split at h
      · cases h
      · cases h
      · simp only [Parser.error, Option.some.injEq, Except.error.injEq] at h
        subst h
        exact ⟨0, n + 1, hAtom, rfl, Or.inr ⟨n, result, p1, heq, rfl⟩⟩
  · -- LeftCeil
    split at h
    · cases h
    · next heq => cases h; exact errAt_shift 1 (harith p.advance e heq)
    · next result p1 heq =>
      split at h
      · cases h
      · simp only [Parser.error, Option.some.injEq, Except.error.injEq] at h
        subst h
        exact ⟨0, n + 1, hAtom, rfl, Or.inr ⟨n, result, p1, heq, rfl⟩⟩
  · cases h
  · -- unexpected leading token
    simp only [Parser.error, Option.some.injEq, Except.error.injEq] at h
    subst h
    exact ⟨0, n + 1, hAtom, rfl, Or.inl rfl⟩

theorem postfixFnBody_errAt {n : Nat}
    (hatomE : ∀ p e, (fns n).atom p = some (.error e) → ErrAt p e)
    (p : Parser) (e : AmiError)
    (h : postfixFnBody (fns n) p = some (.error e)) : ErrAt p e := by
  unfold postfixFnBody at h
  split at h
  · cases h
  · next heq => cases h; exact hatomE p e heq
  · next result p1 heq => split at h <;> cases h

theorem prefixFnBody_errAt {n : Nat}
    (hpreE : ∀ p e, (fns n).prefixFn p = some (.error e) → ErrAt p e)
    (hpostE : ∀ p e, (fns n).postfixFn p = some (.error e) → ErrAt p e)
    (p : Parser) (e : AmiError)
    (h : prefixFnBody (fns n) p = some (.error e)) : ErrAt p e := by
  unfold prefixFnBody at h
  split at h <;>
    first
      | exact hpostE p e h
      | (split at h
         · cases h
         · next heq => (cases h; exact errAt_shift 1 (hpreE p.advance e heq))
         · cases h)

theorem powerBody_errAt {n : Nat}
    (hpreE : ∀ p e, (fns n).prefixFn p = some (.error e) → ErrAt p e)
    (hfacE : ∀ p e, (fns n).factor p = some (.error e) → ErrAt p e)
    (p : Parser) (e : AmiError)
    (h : powerBody (fns n) p = some (.error e)) : ErrAt p e := by
  obtain ⟨-, -, -, -, -, -, -, -, hSpre, -, -, -⟩ := fns_stepInv n
  unfold powerBody at h
  split at h
  · cases h
  · next heq => cases h; exact hpreE p e heq
  · next result p1 heq =>
    obtain ⟨k, hk⟩ := steps_ok (hSpre p) heq
    split at h
    · split at h
      · cases h
      · next heq2 =>
        cases h
        exact errAt_of_eq (adv_snoc hk) (hfacE p1.advance e heq2)
      · cases h
    · cases h

theorem factorBody_errAt {n : Nat}
    (hfacE : ∀ p e, (fns n).factor p = some (.error e) → ErrAt p e)
    (hpowE : ∀ p e, (fns n).power p = some (.error e) → ErrAt p e)
    (p : Parser) (e : AmiError)
    (h : factorBody (fns n) p = some (.error e)) : ErrAt p e := by
  unfold factorBody at h
  split at h <;>
    first
      | exact hpowE p e h
      | (split at h
         · cases h
         · next heq => (cases h; exact errAt_shift 1 (hfacE p.advance e heq))
         · cases h)

theorem termBody_errAt {n : Nat}
    (hfacE : ∀ p e, (fns n).factor p = some (.error e) → ErrAt p e)
    (htermE : ∀ p e, (fns n).term p = some (.error e) → ErrAt p e)
    (p : Parser) (e : AmiError)
    (h : termBody (fns n) p = some (.error e)) : ErrAt p e := by
  obtain ⟨-, -, -, -, -, -, hSfac, -, -, -, -, -⟩ := fns_stepInv n
  unfold termBody at h
  split at h
  · cases h
  · next heq => cases h; exact hfacE p e heq
  · next left p1 heq =>
    obtain ⟨k, hk⟩ := steps_ok (hSfac p) heq
    split at h <;>
      first
        | cases h
        | (split at h
           · cases h
           · next heq2 =>
               (cases h
                exact errAt_of_eq (adv_snoc hk) (htermE p1.advance e heq2))
           · cases h)

theorem arithExprBody_errAt {n : Nat}
    (htermE : ∀ p e, (fns n).term p = some (.error e) → ErrAt p e)
    (harithE : ∀ p e, (fns n).arith_expr p = some (.error e) → ErrAt p e)
    (p : Parser) (e : AmiError)
    (h : arithExprBody (fns n) p = some (.error e)) : ErrAt p e := by
  obtain ⟨-, -, -, -, -, hSterm, -, -, -, -, -, -⟩ := fns_stepInv n
  unfold arithExprBody at h
  split at h
  · cases h
  · next heq => cases h; exact htermE p e heq
  · next left p1 heq =>
    obtain ⟨k, hk⟩ := steps_ok (hSterm p) heq
    split at h <;>
      first
        | cases h
        | (split at h
           · cases h
           · next heq2 =>
               (cases h
                exact errAt_of_eq (adv_snoc hk) (harithE p1.advance e heq2))
           · cases h)

theorem exprBody_errAt {n : Nat}
    (harithE : ∀ p e, (fns n).arith_expr p = some (.error e) → ErrAt p e)
    (p : Parser) (e : AmiError)
    (h : exprBody (fns n) p = some (.error e)) : ErrAt p e := by
  unfold exprBody at h
  split at h
  · split at h
    · cases h
    · next heq =>
      cases h
      exact errAt_shift 2 (harithE p.advance.advance e heq)
    · cases h
  · exact harithE p e h

theorem statementBody_errAt {n : Nat}
    (hexprE : ∀ p e, (fns n).expr p = some (.error e) → ErrAt p e)
    (p : Parser) (e : AmiError)
    (h : statementBody (fns n) p = some (.error e)) : ErrAt p e := by
  unfold statementBody at h
  exact hexprE p e h

theorem statementsLoopBody_errAt {n : Nat}
    (hloopE : ∀ acc p e,
      (fns n).statements_loop acc p = some (.error e) → ErrAt p e)
    (hstmtE : ∀ p e, (fns n).statement p = some (.error e) → ErrAt p e)
    (acc : List Node) (p : Parser) (e : AmiError)
    (h : statementsLoopBody (fns n) acc p = some (.error e)) : ErrAt p e := by
  obtain ⟨-, -, hSstmt, -, -, -, -, -, -, -, -, hSskip⟩ := fns_stepInv n
  unfold statementsLoopBody at h
  split at h
  · cases h
  · next newlines p1 heq =>
    have hsk := hSskip p
    rw [heq] at hsk
    obtain ⟨⟨m1, hm⟩, -⟩ := hsk
    split at h
    · cases h
    · split at h
      · cases h
      · next heq2 => cases h; exact errAt_of_eq hm (hstmtE p1 e heq2)
      · next st p2 heq2 =>
        obtain ⟨k, hk⟩ := steps_ok (hSstmt p1) heq2
        split at h
        · split at h <;> cases h
        · exact errAt_of_eq (adv_comp hm hk) (hloopE (acc ++ [st]) p2 e h)

theorem statementsBody_errAt {n : Nat}
    (hloopE : ∀ acc p e,
      (fns n).statements_loop acc p = some (.error e) → ErrAt p e)
    (hstmtE : ∀ p e, (fns n).statement p = some (.error e) → ErrAt p e)
    (p : Parser) (e : AmiError)
    (h : statementsBody (fns n) p = some (.error e)) : ErrAt p e := by
  obtain ⟨-, -, hSstmt, -, -, -, -, -, -, -, -, hSskip⟩ := fns_stepInv n
  unfold statementsBody at h
  split at h
  · cases h
  · next n0 p0 heq =>
    have hsk := hSskip p
    rw [heq] at hsk
    obtain ⟨⟨m1, hm⟩, -⟩ := hsk
    split at h
    · cases h
    · next heq2 => cases h; exact errAt_of_eq hm (hstmtE p0 e heq2)
    · next st p1 heq2 =>
      obtain ⟨k, hk⟩ := steps_ok (hSstmt p0) heq2
      split at h
      · cases h
      · next heq3 =>
        cases h
        exact errAt_of_eq (adv_comp hm hk) (hloopE [st] p1 e heq3)
      · cases h

/-- Every error any grammar procedure returns satisfies the strong
characterization `ErrAt`: it was produced by an `atom` invocation at a
reached state, starting at that construct's entry-token start and ending at
the failing token's end. -/
theorem fns_errInv : ∀ n, ErrInv n := by
  intro n
  induction n with
  | zero =>
    exact ⟨fun _ _ h => (nomatch h), fun _ _ _ h => (nomatch h),
      fun _ _ h => (nomatch h), fun _ _ h => (nomatch h),
      fun _ _ h => (nomatch h), fun _ _ h => (nomatch h),
      fun _ _ h => (nomatch h), fun _ _ h => (nomatch h),
      fun _ _ h => (nomatch h), fun _ _ h => (nomatch h),
      fun _ _ h => (nomatch h)⟩
  | succ n ih =>
    obtain ⟨-, ihLoop, ihStmt, ihExpr, ihArith, ihTerm, ihFac, ihPow,
      ihPre, ihPost, ihAtom⟩ := ih
    exact ⟨fun p e h => statementsBody_errAt ihLoop ihStmt p e h,
      fun acc p e h => statementsLoopBody_errAt ihLoop ihStmt acc p e h,
      fun p e h => statementBody_errAt ihExpr p e h,
      fun p e h => exprBody_errAt ihArith p e h,
      fun p e h => arithExprBody_errAt ihTerm ihArith p e h,
      fun p e h => termBody_errAt ihFac ihTerm p e h,
      fun p e h => factorBody_errAt ihFac ihPow p e h,
      fun p e h => powerBody_errAt ihPre ihFac p e h,
      fun p e h => prefixFnBody_errAt ihPre ihPost p e h,
      fun p e h => postfixFnBody_errAt ihAtom p e h,
      fun p e h => atomBody_errAt ihArith p e h⟩

/-- A failed `parse` returns an error produced by the `atom` procedure at a
reached cursor state, with range start at that construct's start and range
end at the failing token's end. -/
theorem parse_error_at_atom {ts : List Token} {e : AmiError}
    (h : parse ts = .error e) : ErrAt (Parser.new ts) e := by
  unfold parse at h
  split at h
  · cases h
  · next heq =>
    cases h
    exact (fns_errInv (fuelFor ts)).1 (Parser.new ts) e heq
  · next heq => exact absurd heq (statements_total ts)

/-- C1: binary operator chains at one precedence level associate to the
right: parsing the tokens of `a - b - c` yields
`Binary(a, Sub, Binary(b, Sub, c))` (not the left-associated tree), and
`a ^ b ^ c` yields `Binary(a, Pow, Binary(b, Pow, c))`, for all identifier
names and token ranges. -/
theorem c1_right_associativity (a b c : String) (r1 r2 r3 r4 r5 : SrcRange) :
    parse [⟨.Identifier a, r1⟩, ⟨.Minus, r2⟩, ⟨.Identifier b, r3⟩,
        ⟨.Minus, r4⟩, ⟨.Identifier c, r5⟩] =
      .ok ⟨.Statements [⟨.Binary ⟨.Identifier a, ⟨r1.start, r2.stop⟩⟩ .Sub
        ⟨.Binary ⟨.Identifier b, ⟨r3.start, r4.stop⟩⟩ .Sub
          ⟨.Identifier c, ⟨r5.start, 0⟩⟩, ⟨r3.start, 0⟩⟩, ⟨r1.start, 0⟩⟩],
        ⟨r1.start, 0⟩⟩ ∧
    parse [⟨.Identifier a, r1⟩, ⟨.Carrot, r2⟩, ⟨.Identifier b, r3⟩,
        ⟨.Carrot, r4⟩, ⟨.Identifier c, r5⟩] =
      .ok ⟨.Statements [⟨.Binary ⟨.Identifier a, ⟨r1.start, r2.stop⟩⟩ .Pow
        ⟨.Binary ⟨.Identifier b, ⟨r3.start, r4.stop⟩⟩ .Pow
          ⟨.Identifier c, ⟨r5.start, 0⟩⟩, ⟨r3.start, 0⟩⟩, ⟨r1.start, 0⟩⟩],
        ⟨r1.start, 0⟩⟩ :=
  ⟨rfl, rfl⟩

/-- C2 counterexample: for the single token `Number 5` at offsets `5..6`, the
root node's range is `5..0` (it ends at the synthesized sentinel's default
end `0`), not the minimal consumed span `5..6` the claim asserts. -/
theorem c2_counterexample :
    parse [⟨.Number 5, ⟨5, 6⟩⟩] =
      .ok ⟨.Statements [⟨.Number 5, ⟨5, 0⟩⟩], ⟨5, 0⟩⟩ ∧
    (⟨5, 0⟩ : SrcRange) ≠ ⟨5, 6⟩ :=
  ⟨rfl, by decide⟩

/-- C2 amended: the root node's range starts at the start offset of the
first token (the sentinel's `0` when the input is empty) and ends at the end
offset of the token that is current when parsing completes — the first token
NOT consumed (the sentinel with end `0` at exhaustion) — rather than at the
end of the last consumed token. -/
theorem c2_root_range_spans_entry_to_current {ts : List Token} {nd : Node}
    {p' : Parser}
    (h : (fns (fuelFor ts)).statements (Parser.new ts) = some (.ok (nd, p'))) :
    parse ts = .ok nd ∧
    nd.range = ⟨(Parser.new ts).token.range.start, p'.token.range.stop⟩ := by
  constructor
  · unfold parse
    rw [h]
  · exact statements_ok_range h

theorem c2_root_range_witness :
    parse [⟨.Number 5, ⟨5, 6⟩⟩] =
      .ok ⟨.Statements [⟨.Number 5, ⟨5, 0⟩⟩], ⟨5, 0⟩⟩ ∧
    (Node.mk (.Statements [⟨.Number 5, ⟨5, 0⟩⟩]) ⟨5, 0⟩).range = ⟨5, 0⟩ :=
  c2_root_range_spans_entry_to_current
    (show (fns (fuelFor [⟨.Number 5, ⟨5, 6⟩⟩])).statements
        (Parser.new [⟨.Number 5, ⟨5, 6⟩⟩]) =
      some (.ok (⟨.Statements [⟨.Number 5, ⟨5, 0⟩⟩], ⟨5, 0⟩⟩,
        ⟨[], eofToken⟩)) from rfl)

/-- C3 counterexample: parsing `( 3 + 4 )` at offsets `0..5` produces the
inner `Binary` node with range `1..5`: the tree shape is that of `3 + 4`
with no wrapper, but the range is NOT extended to include the left
parenthesis — it is not the bracket span `0..5`. -/
theorem c3_counterexample :
    parse [⟨.LeftParen, ⟨0, 1⟩⟩, ⟨.Number 3, ⟨1, 2⟩⟩, ⟨.Plus, ⟨2, 3⟩⟩,
        ⟨.Number 4, ⟨3, 4⟩⟩, ⟨.RightParen, ⟨4, 5⟩⟩] =
      .ok ⟨.Statements [⟨.Binary ⟨.Number 3, ⟨1, 3⟩⟩ .Add
        ⟨.Number 4, ⟨3, 5⟩⟩, ⟨1, 5⟩⟩], ⟨0, 0⟩⟩ ∧
    (⟨1, 5⟩ : SrcRange) ≠ ⟨0, 5⟩ :=
  ⟨rfl, by decide⟩

/-- C3 amended: parsing `( x + y )` yields the same `Binary(x, Add, y)` tree
shape as parsing `x + y`, with no wrapper node; the grouped node's range
starts at the first token inside the parentheses (the left parenthesis is
not included) and ends at the right parenthesis's end (the token current
when the inner node was built). -/
theorem c3_grouping_transparent (x y : Nat)
    (r0 r1 r2 r3 r4 s1 s2 s3 : SrcRange) :
    parse [⟨.LeftParen, r0⟩, ⟨.Number x, r1⟩, ⟨.Plus, r2⟩, ⟨.Number y, r3⟩,
        ⟨.RightParen, r4⟩] =
      .ok ⟨.Statements [⟨.Binary ⟨.Number x, ⟨r1.start, r2.stop⟩⟩ .Add
        ⟨.Number y, ⟨r3.start, r4.stop⟩⟩, ⟨r1.start, r4.stop⟩⟩],
        ⟨r0.start, 0⟩⟩ ∧
    parse [⟨.Number x, s1⟩, ⟨.Plus, s2⟩, ⟨.Number y, s3⟩] =
      .ok ⟨.Statements [⟨.Binary ⟨.Number x, ⟨s1.start, s2.stop⟩⟩ .Add
        ⟨.Number y, ⟨s3.start, 0⟩⟩, ⟨s1.start, 0⟩⟩], ⟨s1.start, 0⟩⟩ :=
  ⟨rfl, rfl⟩

/-- C4 counterexample: parsing `x ! !` does NOT fail: it succeeds with root
`Statements [Unary(Fact, x)]`, the second `!` being left unconsumed rather
than raising a syntax error. -/
theorem c4_counterexample :
    parse [⟨.Identifier "x", ⟨0, 1⟩⟩, ⟨.Exclamation, ⟨1, 2⟩⟩,
        ⟨.Exclamation, ⟨2, 3⟩⟩] =
      .ok ⟨.Statements [⟨.Unary .Fact ⟨.Identifier "x", ⟨0, 2⟩⟩, ⟨0, 3⟩⟩],
        ⟨0, 3⟩⟩ :=
  rfl

/-- C4 amended: at most one postfix operator is consumed per atom — parsing
`x ! !` consumes only the first `!` and yields a single `Unary(Fact, x)`
(never a double factorial) — but the parse succeeds, silently leaving the
second `!` unconsumed, instead of failing with a syntax error. -/
theorem c4_postfix_not_chained (name : String) (r1 r2 r3 : SrcRange) :
    parse [⟨.Identifier name, r1⟩, ⟨.Exclamation, r2⟩, ⟨.Exclamation, r3⟩] =
      .ok ⟨.Statements [⟨.Unary .Fact ⟨.Identifier name, ⟨r1.start, r2.stop⟩⟩,
        ⟨r1.start, r3.stop⟩⟩], ⟨r1.start, r3.stop⟩⟩ :=
  rfl

/-- C5 counterexample: the token sequence `1 +` (ending with a binary
operator) does NOT produce a ParseError: the missing right operand parses as
an `EOF` node and the parse succeeds with `Binary(1, Add, EOF)`. -/
theorem c5_counterexample :
    parse [⟨.Number 1, ⟨0, 1⟩⟩, ⟨.Plus, ⟨1, 2⟩⟩] =
      .ok ⟨.Statements [⟨.Binary ⟨.Number 1, ⟨0, 2⟩⟩ .Add ⟨.EOF, ⟨0, 0⟩⟩,
        ⟨0, 0⟩⟩], ⟨0, 0⟩⟩ :=
  rfl

/-- C5 amended: a missing operand after a trailing binary operator does not
fail at top level — the operand position is filled by an `EOF` node (for all
payloads and ranges) — and only surfaces as a ParseError when a bracketed
group forces a closer check, e.g. `( 1 +` fails expecting `)`. -/
theorem c5_trailing_operator (x : Nat) (r0 r1 r2 : SrcRange) :
    parse [⟨.Number x, r1⟩, ⟨.Plus, r2⟩] =
      .ok ⟨.Statements [⟨.Binary ⟨.Number x, ⟨r1.start, r2.stop⟩⟩ .Add
        ⟨.EOF, ⟨0, 0⟩⟩, ⟨r1.start, 0⟩⟩], ⟨r1.start, 0⟩⟩ ∧
    parse [⟨.LeftParen, r0⟩, ⟨.Number x, r1⟩, ⟨.Plus, r2⟩] =
      .error ⟨"expected token", "expected " ++ TokenType.display .RightParen,
        ⟨r0.start, 0⟩⟩ :=
  ⟨rfl, rfl⟩

/-- C6: bracket disambiguation at the atom level — a floor-left bracket
closed by floor-right yields `Unary(Floor, x)`; closed by ceiling-right it
yields `Unary(Abs, x)`; a ceiling-left bracket closed by a wrong closer (the
spec's example `⌈ x ⌈`) fails with an "expected token" error whose range
ends at the offending token's end. -/
theorem c6_bracket_disambiguation (name : String) (r0 r1 r2 : SrcRange) :
    parse [⟨.LeftFloor, r0⟩, ⟨.Identifier name, r1⟩, ⟨.RightFloor, r2⟩] =
      .ok ⟨.Statements [⟨.Unary .Floor ⟨.Identifier name, ⟨r1.start, r2.stop⟩⟩,
        ⟨r0.start, 0⟩⟩], ⟨r0.start, 0⟩⟩ ∧
    parse [⟨.LeftFloor, r0⟩, ⟨.Identifier name, r1⟩, ⟨.RightCeil, r2⟩] =
      .ok ⟨.Statements [⟨.Unary .Abs ⟨.Identifier name, ⟨r1.start, r2.stop⟩⟩,
        ⟨r0.start, 0⟩⟩], ⟨r0.start, 0⟩⟩ ∧
    parse [⟨.LeftCeil, r0⟩, ⟨.Identifier name, r1⟩, ⟨.LeftCeil, r2⟩] =
      .error ⟨"expected token", "expected " ++ TokenType.display .RightCeil,
        ⟨r0.start, r2.stop⟩⟩ :=
  ⟨rfl, rfl, rfl⟩

/-- C7: parsing the token sequence with zero real tokens (the empty
sequence) succeeds, yielding a `Statements` node containing exactly one
`EOF` statement whose range is the empty range `0..0`. -/
theorem c7_empty_input :
    parse [] = .ok ⟨.Statements [⟨.EOF, ⟨0, 0⟩⟩], ⟨0, 0⟩⟩ :=
  rfl

/-- C8: every ParseError is produced by the `atom` procedure invoked at a
cursor state the parser reached — the construct being parsed when the
failure was detected — and its range starts at that construct's entry-token
start offset and ends at the current (failing) token's end offset: either
the construct's own unexpected leading token, or the current token of the
exact state returned by the inner `arith_expr` at which the closing-bracket
check failed.  In particular an unterminated `(` fails with a reason naming
the expected `)` and a range ending at the end-of-stream sentinel's end
offset. -/
theorem c8_error_ranges :
    (∀ (ts : List Token) (e : AmiError), parse ts = .error e →
      ∃ k m, (fns m).atom ((Parser.new ts).advanceN k) = some (.error e) ∧
        e.range.start = ((Parser.new ts).advanceN k).token.range.start ∧
        (e.range.stop = ((Parser.new ts).advanceN k).token.range.stop ∨
          ∃ m2 nd q', (fns m2).arith_expr (((Parser.new ts).advanceN k).advance) =
              some (.ok (nd, q')) ∧
            e.range.stop = q'.token.range.stop)) ∧
    (∀ (x : Nat) (r0 r1 : SrcRange),
      parse [⟨.LeftParen, r0⟩, ⟨.Number x, r1⟩] =
        .error ⟨"expected token",
          "expected " ++ TokenType.display .RightParen, ⟨r0.start, 0⟩⟩) :=
  ⟨fun _ _ h => parse_error_at_atom h, fun _ _ _ => rfl⟩

theorem c8_error_ranges_witness :
    ∃ k m, (fns m).atom ((Parser.new [⟨.RightParen, ⟨1, 2⟩⟩]).advanceN k) =
        some (.error ⟨"expected token",
          "expected number, variable, function name, " ++
            TokenType.display .LeftParen ++ ", " ++ TokenType.display .Pipe ++
            ", " ++ TokenType.display .LeftFloor ++ ", or " ++
            TokenType.display .LeftCeil, ⟨1, 2⟩⟩) ∧
      (AmiError.mk "expected token"
          ("expected number, variable, function name, " ++
            TokenType.display .LeftParen ++ ", " ++ TokenType.display .Pipe ++
            ", " ++ TokenType.display .LeftFloor ++ ", or " ++
            TokenType.display .LeftCeil) ⟨1, 2⟩).range.start =
        ((Parser.new [⟨.RightParen, ⟨1, 2⟩⟩]).advanceN k).token.range.start ∧
      ((AmiError.mk "expected token"
          ("expected number, variable, function name, " ++
            TokenType.display .LeftParen ++ ", " ++ TokenType.display .Pipe ++
            ", " ++ TokenType.display .LeftFloor ++ ", or " ++
            TokenType.display .LeftCeil) ⟨1, 2⟩).range.stop =
        ((Parser.new [⟨.RightParen, ⟨1, 2⟩⟩]).advanceN k).token.range.stop ∨
        ∃ m2 nd q',
          (fns m2).arith_expr
              (((Parser.new [⟨.RightParen, ⟨1, 2⟩⟩]).advanceN k).advance) =
            some (.ok (nd, q')) ∧
          (AmiError.mk "expected token"
              ("expected number, variable, function name, " ++
                TokenType.display .LeftParen ++ ", " ++
                TokenType.display .Pipe ++ ", " ++
                TokenType.display .LeftFloor ++ ", or " ++
                TokenType.display .LeftCeil) ⟨1, 2⟩).range.stop =
            q'.token.range.stop) :=
  c8_error_ranges.1 [⟨.RightParen, ⟨1, 2⟩⟩] _ (by rfl)

/-- C9: parsing terminates on every finite token sequence — with the linear
fuel bound `fuelFor` the statements procedure always returns a result — and
the cursor never moves backward: on success the final cursor state is an
iterated forward advance of the initial state. -/
theorem c9_terminates_forward :
    (∀ ts : List Token,
      (fns (fuelFor ts)).statements (Parser.new ts) ≠ none) ∧
    (∀ (ts : List Token) (nd : Node) (p' : Parser),
      (fns (fuelFor ts)).statements (Parser.new ts) = some (.ok (nd, p')) →
      ∃ k, p' = (Parser.new ts).advanceN k) :=
  ⟨statements_total,
   fun ts _ _ h => steps_ok ((fns_stepInv (fuelFor ts)).1 (Parser.new ts)) h⟩

theorem c9_terminates_forward_witness :
    ((fns (fuelFor [⟨.Number 1, ⟨0, 1⟩⟩])).statements
        (Parser.new [⟨.Number 1, ⟨0, 1⟩⟩]) ≠ none) ∧
    ∃ k, Parser.mk [] eofToken = (Parser.new [⟨.Number 1, ⟨0, 1⟩⟩]).advanceN k :=
  ⟨c9_terminates_forward.1 [⟨.Number 1, ⟨0, 1⟩⟩],
   c9_terminates_forward.2 [⟨.Number 1, ⟨0, 1⟩⟩]
     ⟨.Statements [⟨.Number 1, ⟨0, 0⟩⟩], ⟨0, 0⟩⟩ ⟨[], eofToken⟩ (by rfl)⟩

/-- C10: a node built by the `node` helper gets as range end the end offset
of the token current at construction (the first token not consumed by it);
the root node's range therefore ends at the end of the token current at
completion, and a parse that consumes the whole stream ends its root range
at the sentinel's default end `0` regardless of the consumed offsets —
witnessed by `Number 7` at offsets `2..3` yielding root range `2..0`. -/
theorem c10_node_end_is_current_token_end :
    (∀ (p : Parser) (ty : NodeType) (start : Nat),
      p.node ty start = .ok (⟨ty, ⟨start, p.token.range.stop⟩⟩, p)) ∧
    (∀ {ts : List Token} {nd : Node} {p' : Parser},
      (fns (fuelFor ts)).statements (Parser.new ts) = some (.ok (nd, p')) →
      nd.range.stop = p'.token.range.stop) ∧
    parse [⟨.Number 7, ⟨2, 3⟩⟩] =
      .ok ⟨.Statements [⟨.Number 7, ⟨2, 0⟩⟩], ⟨2, 0⟩⟩ :=
  ⟨fun _ _ _ => rfl, fun h => by rw [statements_ok_range h], rfl⟩

theorem c10_node_end_witness :
    (Parser.mk [] eofToken).node .EOF 0 =
      .ok (⟨.EOF, ⟨0, 0⟩⟩, ⟨[], eofToken⟩) ∧
    (Node.mk (.Statements [⟨.Number 7, ⟨2, 0⟩⟩]) ⟨2, 0⟩).range.stop = 0 :=
  ⟨c10_node_end_is_current_token_end.1 ⟨[], eofToken⟩ .EOF 0,
   c10_node_end_is_current_token_end.2.1
     (show (fns (fuelFor [⟨.Number 7, ⟨2, 3⟩⟩])).statements
         (Parser.new [⟨.Number 7, ⟨2, 3⟩⟩]) =
       some (.ok (⟨.Statements [⟨.Number 7, ⟨2, 0⟩⟩], ⟨2, 0⟩⟩,
         ⟨[], eofToken⟩)) from rfl)⟩
